/-
  Verification of the moving-average strategy engine of data_processor.py
  (class CryptoStrategyAnalyzer).

  Shallow embedding conventions:
  * price series, return series and signal series are lists of rationals;
    pandas NaN entries are modelled as `none` in lists of `Option ℚ`;
  * floating point arithmetic is idealised as exact arithmetic; the two
    irrational operations of the source (square roots inside std-dev based
    quantities and the real power inside CAGR) live in ℝ;
  * a pandas comparison against NaN is false, so a guard such as
    `if volatility > 0` sends a NaN denominator to the else-branch; this is
    modelled by matching on the `Option` first;
  * a function whose source body can raise (and whose caller catches the
    exception, returning `{}`) returns an `Option`.
-/
import Mathlib

set_option maxHeartbeats 1000000

/-- The four strategy variants of `CryptoStrategyAnalyzer.strategies`. -/
inductive StrategyType
  | BTC_only
  | ETH_only
  | rebalance_50_50
  | rebalance_60_40
deriving DecidableEq, Repr

/-- The four current-signal classifications produced by
`backtest_ma_strategy` (strong/weak buy, strong/weak sell). -/
inductive SignalClass
  | strongBuy
  | weakBuy
  | strongSell
  | weakSell
deriving DecidableEq, Repr

/-- Arithmetic mean of a list, `Series.mean()`; division by zero on the
empty list is harmless because every use is guarded by a non-emptiness
check in the source. -/
def listMean (xs : List ℚ) : ℚ := xs.sum / (xs.length : ℚ)

/-- Mean of the trailing window of length `w` ending at index `i`,
the value produced by `rolling(window=w).mean()` where it is defined. -/
def winMean (w : ℕ) (p : List ℚ) (i : ℕ) : ℚ :=
  (((p.drop (i + 1 - w)).take w).sum) / (w : ℚ)

/-- Entry `i` of `price_data.rolling(window=ma_period, min_periods=ma_period).mean()`:
defined (`some`) exactly when `w` observations exist, i.e. `w ≤ i + 1`. -/
def maAt (w : ℕ) (p : List ℚ) (i : ℕ) : Option ℚ :=
  if w ≤ i + 1 then some (winMean w p i) else none

/-- The whole rolling-mean series, aligned with the price series. -/
def rollingMean (w : ℕ) (p : List ℚ) : List (Option ℚ) :=
  (List.range p.length).map (maAt w p)

/-- The raw signal series before filling: `signals[price > ma] = 1`,
`signals[price <= ma] = 0`, NaN where the moving average is NaN (a pandas
comparison with NaN is false, so such rows are touched by neither
assignment). -/
def rawSignalOf (w : ℕ) (p : List ℚ) : List (Option ℚ) :=
  (List.range p.length).map (fun i =>
    match maAt w p i with
    | some m => some (if m < p.getD i 0 then (1 : ℚ) else 0)
    | none => none)

/-- Forward fill carrying the last seen value, seeded with the
`fillna(0)` default: `fillna(method='ffill').fillna(0)`. -/
def ffill0Aux (last : ℚ) : List (Option ℚ) → List ℚ
  | [] => []
  | none :: t => last :: ffill0Aux last t
  | some x :: t => x :: ffill0Aux x t

/-- The final signal series of `backtest_ma_strategy`. -/
def signalsOf (w : ℕ) (p : List ℚ) : List ℚ :=
  ffill0Aux 0 (rawSignalOf w p)

/-- `Series.pct_change()`: NaN in the first slot, then the
period-over-period relative change. -/
def pricePctChange (p : List ℚ) : List (Option ℚ) :=
  (List.range p.length).map (fun i =>
    if i = 0 then none
    else some ((p.getD i 0 - p.getD (i - 1) 0) / p.getD (i - 1) 0))

/-- `Series.shift(1)`: NaN in the first slot, then the previous value. -/
def shiftOne (xs : List ℚ) : List (Option ℚ) :=
  (List.range xs.length).map (fun i =>
    if i = 0 then none else some (xs.getD (i - 1) 0))

/-- Elementwise product with NaN propagation. -/
def mulOpt : Option ℚ → Option ℚ → Option ℚ
  | some a, some b => some (a * b)
  | _, _ => none

/-- `strategy_returns = signals.shift(1) * price_returns`, index-aligned,
before `dropna()`. -/
def strategyReturnsRaw (w : ℕ) (p : List ℚ) : List (Option ℚ) :=
  List.zipWith mulOpt (shiftOne (signalsOf w p)) (pricePctChange p)

/-- `strategy_returns.dropna()`. -/
def strategyReturnsList (w : ℕ) (p : List ℚ) : List ℚ :=
  (strategyReturnsRaw w p).filterMap id

/-- `signals.diff()`: NaN in the first slot, then day-over-day change. -/
def diffList (xs : List ℚ) : List (Option ℚ) :=
  (List.range xs.length).map (fun i =>
    if i = 0 then none else some (xs.getD i 0 - xs.getD (i - 1) 0))

/-- `len(position_changes[position_changes != 0])`.  In numpy a NaN
compares unequal to 0, so the undefined leading entry of `diff()` is
counted. -/
def countTrades (xs : List ℚ) : ℕ :=
  (diffList xs).countP (fun o =>
    match o with
    | none => true
    | some c => decide (c ≠ 0))

/-- The current-signal classification of `backtest_ma_strategy`: the four
fixed bands on the price/MA quotient together with the per-band strength
before the final clamp. -/
def classifySignal (q : ℚ) : SignalClass × ℚ :=
  if 102 / 100 < q then (.strongBuy, min 95 (50 + (q - 1) * 1000))
  else if 1 < q then (.weakBuy, 50 + (q - 1) * 500)
  else if q < 98 / 100 then (.strongSell, min 95 (50 + (1 - q) * 1000))
  else (.weakSell, 50 + (1 - q) * 500)

/-- The final clamp `min(99, max(1, signal_strength))`. -/
def clampStrength (s : ℚ) : ℚ := min 99 (max 1 s)

lemma clampStrength_mem (s : ℚ) : 1 ≤ clampStrength s ∧ clampStrength s ≤ 99 := by
  unfold clampStrength
  constructor
  · exact le_min (by norm_num) (le_max_left 1 s)
  · exact min_le_left 99 (max 1 s)

/-- C8.  The current signal is classified by four fixed bands on the
price/MA quotient — quotient above 1.02 is a strong buy, in (1, 1.02] a
weak buy, below 0.98 a strong sell, in [0.98, 1] a weak sell — and the
reported (clamped) signal strength lies in [1, 99] for every quotient,
including the boundary value 1. -/
theorem c8_signal_bands_strength (q : ℚ) :
    (102 / 100 < q → (classifySignal q).1 = SignalClass.strongBuy) ∧
    (1 < q → q ≤ 102 / 100 → (classifySignal q).1 = SignalClass.weakBuy) ∧
    (q < 98 / 100 → (classifySignal q).1 = SignalClass.strongSell) ∧
    (98 / 100 ≤ q → q ≤ 1 → (classifySignal q).1 = SignalClass.weakSell) ∧
    1 ≤ clampStrength (classifySignal q).2 ∧
    clampStrength (classifySignal q).2 ≤ 99 := by
  refine ⟨?_, ?_, ?_, ?_, (clampStrength_mem _).1, (clampStrength_mem _).2⟩
  · intro h
    simp only [classifySignal, if_pos h]
  · intro h1 h2
    have hn : ¬ (102 / 100 < q) := not_lt.mpr h2
    simp only [classifySignal, if_neg hn, if_pos h1]
  · intro h
    have hn1 : ¬ (102 / 100 < q) := by intro hc; linarith
    have hn2 : ¬ (1 < q) := by intro hc; linarith
    simp only [classifySignal, if_neg hn1, if_neg hn2, if_pos h]
  · intro h1 h2
    have hn1 : ¬ (102 / 100 < q) := by intro hc; linarith
    have hn2 : ¬ (1 < q) := not_lt.mpr h2
    have hn3 : ¬ (q < 98 / 100) := not_lt.mpr h1
    simp only [classifySignal, if_neg hn1, if_neg hn2, if_neg hn3]

/-- Witness for C8 at the boundary quotient 1: the classification is a
weak sell and the clamped strength is within [1, 99]. -/
theorem c8_signal_bands_strength_witness :
    (98 / 100 ≤ (1 : ℚ)) ∧ ((1 : ℚ) ≤ 1) ∧
    (classifySignal 1).1 = SignalClass.weakSell ∧
    1 ≤ clampStrength (classifySignal 1).2 ∧
    clampStrength (classifySignal 1).2 ≤ 99 := by
  refine ⟨by norm_num, le_refl 1, ?_, ?_, ?_⟩
  · exact (c8_signal_bands_strength 1).2.2.2.1 (by norm_num) (le_refl 1)
  · exact (c8_signal_bands_strength 1).2.2.2.2.1
  · exact (c8_signal_bands_strength 1).2.2.2.2.2

/-- The entry at `t ≥ 1` of `pct_change`, as a plain rational. -/
def pctAt (p : List ℚ) (t : ℕ) : ℚ :=
  (p.getD t 0 - p.getD (t - 1) 0) / p.getD (t - 1) 0

lemma rangeMap_getElem? (f : ℕ → α) (n i : ℕ) :
    ((List.range n).map f)[i]? = if i < n then some (f i) else none := by
  by_cases h : i < n
  · rw [List.getElem?_map, List.getElem?_range h]
    simp [h]
  · rw [List.getElem?_map, if_neg h]
    have : (List.range n)[i]? = none := by
      rw [List.getElem?_eq_none]
      simpa using Nat.le_of_not_lt h
    rw [this]
    rfl

lemma length_ffill0Aux (d : ℚ) (xs : List (Option ℚ)) :
    (ffill0Aux d xs).length = xs.length := by
  induction xs generalizing d with
  | nil => rfl
  | cons o t ih =>
    cases o <;> simp [ffill0Aux, ih]

lemma length_rawSignalOf (w : ℕ) (p : List ℚ) :
    (rawSignalOf w p).length = p.length := by
  simp [rawSignalOf]

lemma length_signalsOf (w : ℕ) (p : List ℚ) :
    (signalsOf w p).length = p.length := by
  rw [signalsOf, length_ffill0Aux, length_rawSignalOf]

lemma ffill0Aux_getElem?_some :
    ∀ (xs : List (Option ℚ)) (d : ℚ) (i : ℕ) (v : ℚ),
      xs[i]? = some (some v) → (ffill0Aux d xs)[i]? = some v := by
  intro xs
  induction xs with
  | nil => intro d i v h; simp at h
  | cons o t ih =>
    intro d i v h
    cases i with
    | zero =>
      simp only [List.getElem?_cons_zero, Option.some.injEq] at h
      subst h
      simp [ffill0Aux]
    | succ j =>
      simp only [List.getElem?_cons_succ] at h
      cases o with
      | none => simpa [ffill0Aux] using ih d j v h
      | some x => simpa [ffill0Aux] using ih x j v h

lemma ffill0Aux_getElem?_headNone :
    ∀ (xs : List (Option ℚ)) (d : ℚ) (i : ℕ),
      i < xs.length → (∀ j, j ≤ i → xs[j]? = some none) →
      (ffill0Aux d xs)[i]? = some d := by
  intro xs
  induction xs with
  | nil => intro d i hi _; simp at hi
  | cons o t ih =>
    intro d i hi hall
    have h0 := hall 0 (Nat.zero_le i)
    simp only [List.getElem?_cons_zero, Option.some.injEq] at h0
    subst h0
    cases i with
    | zero => simp [ffill0Aux]
    | succ j =>
      have heq : ffill0Aux d (none :: t) = d :: ffill0Aux d t := by
        simp [ffill0Aux]
      rw [heq, List.getElem?_cons_succ]
      refine ih d j (by simpa using hi) ?_
      intro k hk
      have := hall (k + 1) (Nat.succ_le_succ hk)
      simpa using this

lemma rawSignalOf_getElem? (w : ℕ) (p : List ℚ) (i : ℕ) (hi : i < p.length) :
    (rawSignalOf w p)[i]? =
      some (if w ≤ i + 1
            then some (if winMean w p i < p.getD i 0 then (1 : ℚ) else 0)
            else none) := by
  rw [rawSignalOf, rangeMap_getElem?, if_pos hi]
  by_cases h : w ≤ i + 1 <;> simp [maAt, h]

lemma signalsOf_getD_defined (w : ℕ) (p : List ℚ) (i : ℕ)
    (hi : i < p.length) (hw : w ≤ i + 1) :
    (signalsOf w p).getD i 0 =
      if winMean w p i < p.getD i 0 then (1 : ℚ) else 0 := by
  have h := rawSignalOf_getElem? w p i hi
  rw [if_pos hw] at h
  have := ffill0Aux_getElem?_some (rawSignalOf w p) 0 i _ h
  rw [List.getD_eq_getElem?_getD, signalsOf, this]
  rfl

lemma signalsOf_getD_warmup (w : ℕ) (p : List ℚ) (i : ℕ)
    (hi : i < p.length) (hw : i + 1 < w) :
    (signalsOf w p).getD i 0 = 0 := by
  have hlen : i < (rawSignalOf w p).length := by
    rwa [length_rawSignalOf]
  have hall : ∀ j, j ≤ i → (rawSignalOf w p)[j]? = some none := by
    intro j hj
    have hjlt : j < p.length := lt_of_le_of_lt hj hi
    have h := rawSignalOf_getElem? w p j hjlt
    rw [if_neg (by omega)] at h
    exact h
  have := ffill0Aux_getElem?_headNone (rawSignalOf w p) 0 i hlen hall
  rw [List.getD_eq_getElem?_getD, signalsOf, this]
  rfl

/-- C4.  For a window `W ≥ 1`: the raw signal is undefined (NaN) at index
`i` exactly when fewer than `W` observations exist there; where the moving
average is defined the final signal is 1 when the price strictly exceeds
the MA and 0 when it does not; and the undefined leading entries are
filled with the flat default 0. -/
theorem c4_signal_series_shape (p : List ℚ) (w i : ℕ)
    (_hw : 1 ≤ w) (hi : i < p.length) :
    ((rawSignalOf w p)[i]? = some none ↔ i + 1 < w) ∧
    (w ≤ i + 1 → (signalsOf w p).getD i 0 =
        if winMean w p i < p.getD i 0 then (1 : ℚ) else 0) ∧
    (i + 1 < w → (signalsOf w p).getD i 0 = 0) := by
  refine ⟨?_, signalsOf_getD_defined w p i hi, signalsOf_getD_warmup w p i hi⟩
  constructor
  · intro h
    by_contra hc
    have hle : w ≤ i + 1 := Nat.le_of_not_lt hc
    rw [rawSignalOf_getElem? w p i hi, if_pos hle] at h
    simp at h
  · intro h
    rw [rawSignalOf_getElem? w p i hi, if_neg (by omega)]

/-- Witness for C4 on the concrete series [1, 2, 4] with window 2: index 0
is inside the warm-up (signal filled with 0), and the hypotheses of the
theorem hold there. -/
theorem c4_signal_series_shape_witness :
    ((1 ≤ 2) ∧ (0 < ([(1 : ℚ), 2, 4]).length)) ∧
    (((rawSignalOf 2 [(1 : ℚ), 2, 4])[0]? = some none ↔ 0 + 1 < 2) ∧
     (2 ≤ 0 + 1 → (signalsOf 2 [(1 : ℚ), 2, 4]).getD 0 0 =
        if winMean 2 [(1 : ℚ), 2, 4] 0 < ([(1 : ℚ), 2, 4]).getD 0 0 then 1 else 0) ∧
     (0 + 1 < 2 → (signalsOf 2 [(1 : ℚ), 2, 4]).getD 0 0 = 0)) :=
  ⟨⟨by decide, by decide⟩,
    c4_signal_series_shape [(1 : ℚ), 2, 4] 2 0 (by decide) (by decide)⟩

/-- The scenario hypothesis of C3: the price is strictly above its moving
average at every index at which the moving average is defined. -/
def aboveMA (w : ℕ) (p : List ℚ) : Prop :=
  ∀ i, i < p.length → w ≤ i + 1 → winMean w p i < p.getD i 0

lemma shiftOne_getElem? (xs : List ℚ) (i : ℕ) (h1 : 1 ≤ i) (hi : i < xs.length) :
    (shiftOne xs)[i]? = some (some (xs.getD (i - 1) 0)) := by
  rw [shiftOne, rangeMap_getElem?, if_pos hi, if_neg (by omega)]

lemma pricePctChange_getElem? (p : List ℚ) (i : ℕ) (h1 : 1 ≤ i) (hi : i < p.length) :
    (pricePctChange p)[i]? = some (some (pctAt p i)) := by
  rw [pricePctChange, rangeMap_getElem?, if_pos hi, if_neg (by omega)]
  rfl

lemma strategyReturnsRaw_lag (w : ℕ) (p : List ℚ) (t : ℕ)
    (h1 : 1 ≤ t) (ht : t < p.length) :
    (strategyReturnsRaw w p)[t]? =
      some (some ((signalsOf w p).getD (t - 1) 0 * pctAt p t)) := by
  have hsig : t < (signalsOf w p).length := by
    rwa [length_signalsOf]
  rw [strategyReturnsRaw, List.getElem?_zipWith,
    shiftOne_getElem? (signalsOf w p) t h1 hsig,
    pricePctChange_getElem? p t h1 ht]
  simp [mulOpt]

/-- C3.  The strategy return realised at period `t` is the signal of
period `t - 1` times the price return of period `t` (one-period signal
lag); if the price is strictly above its MA wherever the MA is defined,
the signal is constantly 1 from the end of the warm-up on, and the
strategy-return entry at every `t ≥ W` equals the price return at `t`
itself (not the price return of the previous period). -/
theorem c3_lagged_signal_returns (p : List ℚ) (w : ℕ) (hw : 1 ≤ w) :
    (∀ t, 1 ≤ t → t < p.length →
      (strategyReturnsRaw w p)[t]? =
        some (some ((signalsOf w p).getD (t - 1) 0 * pctAt p t))) ∧
    (aboveMA w p →
      (∀ i, i < p.length → w ≤ i + 1 → (signalsOf w p).getD i 0 = 1) ∧
      (∀ t, w ≤ t → t < p.length →
        (strategyReturnsRaw w p)[t]? = some (some (pctAt p t)))) := by
  refine ⟨fun t h1 ht => strategyReturnsRaw_lag w p t h1 ht, fun habove => ⟨?_, ?_⟩⟩
  · intro i hi hwi
    rw [signalsOf_getD_defined w p i hi hwi, if_pos (habove i hi hwi)]
  · intro t hwt ht
    have h1 : 1 ≤ t := le_trans hw hwt
    rw [strategyReturnsRaw_lag w p t h1 ht]
    have hprev : (signalsOf w p).getD (t - 1) 0 = 1 := by
      have hplt : t - 1 < p.length := by omega
      have hple : w ≤ (t - 1) + 1 := by omega
      rw [signalsOf_getD_defined w p (t - 1) hplt hple,
        if_pos (habove (t - 1) hplt hple)]
    rw [hprev, one_mul]

/-- Witness for C3 on the strictly rising series [1, 2, 4] with window 2,
where the price is strictly above its MA on the whole defined region: the
lag identity at t = 1, the constant-long signal at index 1, and the
equality with the period price return at t = 2. -/
theorem c3_lagged_signal_returns_witness :
    ((1 ≤ 2) ∧ aboveMA 2 [(1 : ℚ), 2, 4] ∧ (1 < ([(1 : ℚ), 2, 4]).length)) ∧
    (strategyReturnsRaw 2 [(1 : ℚ), 2, 4])[1]? =
      some (some ((signalsOf 2 [(1 : ℚ), 2, 4]).getD 0 0 * pctAt [(1 : ℚ), 2, 4] 1)) ∧
    (signalsOf 2 [(1 : ℚ), 2, 4]).getD 1 0 = 1 ∧
    (strategyReturnsRaw 2 [(1 : ℚ), 2, 4])[2]? =
      some (some (pctAt [(1 : ℚ), 2, 4] 2)) := by
  have hab : aboveMA 2 [(1 : ℚ), 2, 4] := by
    intro i hi hw
    simp only [List.length_cons, List.length_nil] at hi
    interval_cases i
    · omega
    · norm_num [winMean]
    · norm_num [winMean]
  have h := c3_lagged_signal_returns [(1 : ℚ), 2, 4] 2 (by norm_num)
  exact ⟨⟨by norm_num, hab, by norm_num⟩,
    h.1 1 (by norm_num) (by norm_num),
    (h.2 hab).1 1 (by norm_num) (by norm_num),
    (h.2 hab).2 2 (by norm_num) (by norm_num)⟩

/-- Counterexample to C3's final clause.  On the series [1, 2, 6] with
window 2 the price is strictly above its MA on the whole defined region,
yet the strategy return realised at period 2 equals the price return of
period 2 (the value 2), not the price return of period 1 (the value 1):
the strategy-return series is not the price-return series delayed by one
period. -/
theorem c3_delayed_series_counterexample :
    aboveMA 2 [(1 : ℚ), 2, 6] ∧
    (strategyReturnsRaw 2 [(1 : ℚ), 2, 6])[2]? = some (some 2) ∧
    (pricePctChange [(1 : ℚ), 2, 6])[1]? = some (some 1) ∧
    (strategyReturnsRaw 2 [(1 : ℚ), 2, 6])[2]? ≠ (pricePctChange [(1 : ℚ), 2, 6])[1]? := by
  have hs : signalsOf 2 [(1 : ℚ), 2, 6] = [0, 1, 1] := by
    norm_num [signalsOf, rawSignalOf, maAt, winMean, List.range_succ, ffill0Aux]
  have hpct : pricePctChange [(1 : ℚ), 2, 6] = [none, some 1, some 2] := by
    norm_num [pricePctChange, List.range_succ]
  have hraw : strategyReturnsRaw 2 [(1 : ℚ), 2, 6] = [none, some 0, some 2] := by
    rw [strategyReturnsRaw, hs, hpct]
    norm_num [shiftOne, List.range_succ, mulOpt]
  refine ⟨?_, ?_, ?_, ?_⟩
  · intro i hi hw
    simp only [List.length_cons, List.length_nil] at hi
    interval_cases i
    · omega
    · norm_num [winMean]
    · norm_num [winMean]
  · rw [hraw]; rfl
  · rw [hpct]; rfl
  · rw [hraw, hpct]
    norm_num

/-- Sample variance with one delta degree of freedom, the quantity under
the square root of `Series.std()`; pandas yields NaN (`none`) for fewer
than two observations. -/
def sampleVar (xs : List ℚ) : Option ℚ :=
  if 2 ≤ xs.length then
    some ((xs.map (fun x => (x - listMean xs) ^ 2)).sum / ((xs.length : ℚ) - 1))
  else none

/-- `Series.std()` (ddof = 1), NaN for fewer than two observations. -/
noncomputable def stdR (xs : List ℚ) : Option ℝ :=
  (sampleVar xs).map (fun v => Real.sqrt (v : ℝ))

/-- `returns.std() * np.sqrt(252)`, the annualised volatility. -/
noncomputable def annVol (xs : List ℚ) : Option ℝ :=
  (stdR xs).map (fun s => s * Real.sqrt 252)

/-- `(1 + returns).prod() - 1`. -/
def totalReturn (xs : List ℚ) : ℚ := (xs.map (fun r => 1 + r)).prod - 1

/-- `cagr = (1 + total_return) ** (1 / num_years) - 1 if num_years > 0 else 0`
with `num_years = len(returns) / 252`. -/
noncomputable def cagrOf (xs : List ℚ) : ℝ :=
  if xs.length = 0 then 0
  else (((1 + totalReturn xs : ℚ) : ℝ)) ^ ((252 : ℝ) / (xs.length : ℝ)) - 1

/-- `sharpe_ratio = (cagr - 0.02) / volatility if volatility > 0 else 0`;
a NaN volatility fails the comparison and also yields 0. -/
noncomputable def sharpeOf (xs : List ℚ) : ℝ :=
  match annVol xs with
  | some v => if 0 < v then (cagrOf xs - 0.02) / v else 0
  | none => 0

/-- `returns[returns < 0]`. -/
def downsideList (xs : List ℚ) : List ℚ := xs.filter (fun r => decide (r < 0))

/-- `downside_returns.std() * np.sqrt(252) if len(downside_returns) > 0 else 0`:
`some 0` when there is no downside observation, NaN (`none`) when there is
exactly one. -/
noncomputable def downsideDev (xs : List ℚ) : Option ℝ :=
  if downsideList xs = [] then some 0
  else (stdR (downsideList xs)).map (fun s => s * Real.sqrt 252)

/-- `sortino_ratio = (cagr - 0.02) / downside_deviation if downside_deviation > 0 else 0`;
a NaN downside deviation fails the comparison and also yields 0. -/
noncomputable def sortinoOf (xs : List ℚ) : ℝ :=
  match downsideDev xs with
  | some d => if 0 < d then (cagrOf xs - 0.02) / d else 0
  | none => 0

/-- `(1 + returns).cumprod()`, the cumulative wealth curve. -/
def cumprodList (xs : List ℚ) : List ℚ :=
  (List.range xs.length).map (fun i => ((xs.take (i + 1)).map (fun r => 1 + r)).prod)

/-- `cumulative_returns.expanding().max()` at index `i`; the `getD 0`
fallback is unreachable because the window is never empty. -/
def runMaxAt (xs : List ℚ) (i : ℕ) : ℚ :=
  (((cumprodList xs).take (i + 1)).max?).getD 0

/-- `(cumulative_returns - rolling_max) / rolling_max`. -/
def drawdowns (xs : List ℚ) : List ℚ :=
  (List.range xs.length).map
    (fun i => ((cumprodList xs).getD i 0 - runMaxAt xs i) / runMaxAt xs i)

/-- `drawdowns.min()`; the `getD 0` fallback is unreachable because the
caller only computes it for a non-empty return series. -/
def maxDrawdown (xs : List ℚ) : ℚ := ((drawdowns xs).min?).getD 0

/-- `win_rate = len(returns[returns > 0]) / len(returns) if len(returns) > 0 else 0`. -/
def winRate (xs : List ℚ) : ℚ :=
  if 0 < xs.length then
    ((xs.filter (fun r => decide (0 < r))).length : ℚ) / (xs.length : ℚ)
  else 0

/-- `_calculate_sortino`: arithmetic-mean based Sortino used only on the
optional secondary series of `calculate_enhanced_metrics`; 0 on the empty
series, with the same downside-deviation guard as `sortinoOf`. -/
noncomputable def calcSortinoAux (xs : List ℚ) : ℝ :=
  if xs.length = 0 then 0
  else
    match downsideDev xs with
    | some d => if 0 < d then ((252 : ℝ) * ((listMean xs : ℚ) : ℝ) - 0.02) / d else 0
    | none => 0

/-- The metric bundle returned by a successful call of
`calculate_enhanced_metrics`; the field names follow the keys of the
returned dict (`num_trades` is the source's name for the observation
count). -/
structure Metrics where
  cagr : ℝ
  volatility : Option ℝ
  sharpe : ℝ
  sortino : ℝ
  max_drawdown : ℚ
  win_rate : ℚ
  total_return : ℚ
  combined_score : ℝ
  num_trades : ℕ

/-- `calculate_enhanced_metrics(returns, period_returns=None)`: the empty
input returns the empty dict `{}` (modelled as `none`); otherwise the full
bundle, whose combined score blends `_calculate_sortino` of the secondary
series with the historical Sortino when a secondary series is supplied. -/
noncomputable def calculate_enhanced_metrics
    (returns : List ℚ) (period_returns : Option (List ℚ)) : Option Metrics :=
  if returns.length = 0 then none
  else some {
    cagr := cagrOf returns
    volatility := annVol returns
    sharpe := sharpeOf returns
    sortino := sortinoOf returns
    max_drawdown := maxDrawdown returns
    win_rate := winRate returns
    total_return := totalReturn returns
    combined_score :=
      match period_returns with
      | some pr => 0.7 * calcSortinoAux pr + 0.3 * sortinoOf returns
      | none => sortinoOf returns
    num_trades := returns.length }

/-- Counterexample to C6.  On a return series with zero elements the
Metrics Calculator returns the empty bundle `{}` (modelled as `none`): no
metric field is present at all, so the result is not an all-zero bundle
with every field present. -/
theorem c6_empty_metrics_counterexample :
    calculate_enhanced_metrics [] none = none := by
  simp [calculate_enhanced_metrics]

/-- C6 (amended).  For every input return series with zero elements the
Metrics Calculator returns the empty bundle (no metric fields, modelled as
`none`) and, being a total function, never raises; consumers read the
missing fields as 0 through lookup defaults. -/
theorem c6_empty_metrics_none (period_returns : Option (List ℚ)) :
    calculate_enhanced_metrics [] period_returns = none := by
  simp [calculate_enhanced_metrics]

/-- The fixed-weight blend of the two assets' daily returns,
`weights[0] * btc_returns + weights[1] * eth_returns`; NaN propagates from
either `pct_change`. -/
def blendReturns (w1 w2 : ℚ) (data : List (ℚ × ℚ)) : List (Option ℚ) :=
  List.zipWith
    (fun a b =>
      match a, b with
      | some x, some y => some (w1 * x + w2 * y)
      | _, _ => none)
    (pricePctChange (data.map Prod.fst)) (pricePctChange (data.map Prod.snd))

/-- Running product used for `(1 + portfolio_returns.fillna(0)).cumprod()`. -/
def cumprodAux (a : ℚ) : List ℚ → List ℚ
  | [] => []
  | x :: t => (a * x) :: cumprodAux (a * x) t

/-- The synthetic portfolio value series of a rebalance variant:
`(1 + portfolio_returns.fillna(0)).cumprod() * 100`. -/
def blendPrices (w1 w2 : ℚ) (data : List (ℚ × ℚ)) : List ℚ :=
  (cumprodAux 1 ((blendReturns w1 w2 data).map (fun o => 1 + o.getD 0))).map
    (fun v => v * 100)

/-- The tradable price/value series for a variant: the branch at the top
of `backtest_ma_strategy` (weights [0.5, 0.5] and [0.6, 0.4]). -/
def priceFor (strat : StrategyType) (data : List (ℚ × ℚ)) : List ℚ :=
  match strat with
  | .BTC_only => data.map Prod.fst
  | .ETH_only => data.map Prod.snd
  | .rebalance_50_50 => blendPrices (1 / 2) (1 / 2) data
  | .rebalance_60_40 => blendPrices (3 / 5) (2 / 5) data

/-- `recent_cutoff = len - min(504, len // 2)`, then `iloc[recent_cutoff:]`:
the recent sub-window of a strategy-return series. -/
def recentSlice (xs : List ℚ) : List ℚ :=
  xs.drop (xs.length - min 504 (xs.length / 2))

/-- `recent_metrics.get('sortino_ratio', 0)`: the Sortino field of a
metric bundle, read as 0 from the empty bundle. -/
noncomputable def sortinoField (o : Option Metrics) : ℝ :=
  match o with
  | some m => m.sortino
  | none => 0

/-- The metric bundle carried by a `backtest_ma_strategy` result after the
combined-score overwrite: the full-history bundle, whose combined score is
replaced by `0.3 * historical_sortino + 0.7 * recent_sortino` whenever the
recent slice is non-empty. -/
noncomputable def btMetrics (w : ℕ) (p : List ℚ) : Option Metrics :=
  (calculate_enhanced_metrics (strategyReturnsList w p) none).map (fun m =>
    if (recentSlice (strategyReturnsList w p)).length ≠ 0 then
      { m with
        combined_score :=
          0.3 * m.sortino +
          0.7 * sortinoField
            (calculate_enhanced_metrics (recentSlice (strategyReturnsList w p)) none) }
    else m)

/-- `price_ma_ratio = current_price / current_ma if current_ma > 0 else 1`;
a NaN MA (series shorter than the window) fails the comparison and yields 1. -/
def currentQuot (w : ℕ) (p : List ℚ) : ℚ :=
  match (rollingMean w p).getLast? with
  | some (some m) => if 0 < m then (p.getLast?).getD 0 / m else 1
  | _ => 1

/-- The dict returned by one successful `backtest_ma_strategy` trial.
`metrics` is `none` when the full-history metrics call returned the empty
bundle (so the dict carries no `combined_score` key). -/
structure BTResult where
  metrics : Option Metrics
  ma_period : ℕ
  total_trades : ℕ
  current_signal : SignalClass
  signal_strength : ℚ
  price_ma_quot : ℚ
  recent_perf : Option Metrics

/-- `backtest_ma_strategy(data, ma_period, strategy_type)`.  The only
exception reachable in this model is indexing `iloc[-1]` on an empty
series, in which case the source's `except` clause returns `{}` (`none`). -/
noncomputable def backtest_ma_strategy
    (data : List (ℚ × ℚ)) (maPeriod : ℕ) (strat : StrategyType) : Option BTResult :=
  if (priceFor strat data).length = 0 then none
  else some {
    metrics := btMetrics maPeriod (priceFor strat data)
    ma_period := maPeriod
    total_trades := countTrades (signalsOf maPeriod (priceFor strat data))
    current_signal := (classifySignal (currentQuot maPeriod (priceFor strat data))).1
    signal_strength := clampStrength (classifySignal (currentQuot maPeriod (priceFor strat data))).2
    price_ma_quot := currentQuot maPeriod (priceFor strat data)
    recent_perf :=
      calculate_enhanced_metrics
        (recentSlice (strategyReturnsList maPeriod (priceFor strat data))) none }

lemma calculate_enhanced_metrics_of_ne_nil (xs : List ℚ) (h : xs.length ≠ 0) :
    calculate_enhanced_metrics xs none = some {
      cagr := cagrOf xs
      volatility := annVol xs
      sharpe := sharpeOf xs
      sortino := sortinoOf xs
      max_drawdown := maxDrawdown xs
      win_rate := winRate xs
      total_return := totalReturn xs
      combined_score := sortinoOf xs
      num_trades := xs.length } := by
  simp [calculate_enhanced_metrics, h]

lemma sortinoOf_nil : sortinoOf [] = 0 := by
  have hd : downsideList ([] : List ℚ) = [] := rfl
  simp [sortinoOf, downsideDev, hd]

lemma sortinoOf_singleton (r : ℚ) : sortinoOf [r] = 0 := by
  by_cases h : r < 0
  · have hd : downsideList [r] = [r] := by
      simp [downsideList, List.filter, h]
    have hvar : sampleVar [r] = none := by
      simp [sampleVar]
    simp [sortinoOf, downsideDev, hd, stdR, hvar]
  · have hd : downsideList [r] = [] := by
      simp [downsideList, List.filter, h]
    simp [sortinoOf, downsideDev, hd]

lemma strategyReturnsList_nil (w : ℕ) : strategyReturnsList w [] = [] := by
  simp [strategyReturnsList, strategyReturnsRaw, signalsOf, rawSignalOf,
    pricePctChange, ffill0Aux]

lemma length_recentSlice (xs : List ℚ) :
    (recentSlice xs).length = min 504 (xs.length / 2) := by
  have hle : min 504 (xs.length / 2) ≤ xs.length := by omega
  simp [recentSlice]
  omega

/-- C2.  For every trial whose strategy-return series has at least one
observation, the combined score carried by the trial result equals
`0.7 * (Sortino of the recent slice) + 0.3 * (Sortino of the full series)`,
where the recent slice drops the first `N - min(504, N / 2)` entries; this
blended value is what overwrites the combined score that the full-history
metrics call wrote into the bundle. -/
lemma btMetrics_combined (w : ℕ) (p : List ℚ)
    (hR : (strategyReturnsList w p).length ≠ 0) :
    ∃ m, btMetrics w p = some m ∧
      m.combined_score =
        0.7 * sortinoOf (recentSlice (strategyReturnsList w p)) +
        0.3 * sortinoOf (strategyReturnsList w p) ∧
      m.volatility = annVol (strategyReturnsList w p) := by
  rcases Nat.lt_or_ge (strategyReturnsList w p).length 2 with h1 | h2
  · -- exactly one observation: the recent slice is empty, no overwrite
    have hlen1 : (strategyReturnsList w p).length = 1 := by omega
    obtain ⟨r0, hr0⟩ := List.length_eq_one.mp hlen1
    have hrec : recentSlice (strategyReturnsList w p) = [] := by
      rw [hr0]
      simp [recentSlice]
    have hbm : btMetrics w p =
        calculate_enhanced_metrics (strategyReturnsList w p) none := by
      rw [btMetrics, calculate_enhanced_metrics_of_ne_nil _ hR, Option.map_some', hrec]
      simp
    rw [calculate_enhanced_metrics_of_ne_nil _ hR] at hbm
    refine ⟨_, hbm, ?_, rfl⟩
    show sortinoOf (strategyReturnsList w p) = _
    rw [hrec, hr0, sortinoOf_nil, sortinoOf_singleton]
    norm_num
  · -- at least two observations: the recent slice is non-empty, overwrite
    have hrlen : (recentSlice (strategyReturnsList w p)).length =
        min 504 ((strategyReturnsList w p).length / 2) := length_recentSlice _
    have hrne : (recentSlice (strategyReturnsList w p)).length ≠ 0 := by omega
    have hbm : btMetrics w p = some
        (if (recentSlice (strategyReturnsList w p)).length ≠ 0 then
          { (Metrics.mk (cagrOf (strategyReturnsList w p))
              (annVol (strategyReturnsList w p)) (sharpeOf (strategyReturnsList w p))
              (sortinoOf (strategyReturnsList w p)) (maxDrawdown (strategyReturnsList w p))
              (winRate (strategyReturnsList w p)) (totalReturn (strategyReturnsList w p))
              (sortinoOf (strategyReturnsList w p)) (strategyReturnsList w p).length) with
            combined_score :=
              0.3 * sortinoOf (strategyReturnsList w p) +
              0.7 * sortinoField
                (calculate_enhanced_metrics (recentSlice (strategyReturnsList w p)) none) }
        else Metrics.mk (cagrOf (strategyReturnsList w p))
              (annVol (strategyReturnsList w p)) (sharpeOf (strategyReturnsList w p))
              (sortinoOf (strategyReturnsList w p)) (maxDrawdown (strategyReturnsList w p))
              (winRate (strategyReturnsList w p)) (totalReturn (strategyReturnsList w p))
              (sortinoOf (strategyReturnsList w p)) (strategyReturnsList w p).length) := by
      rw [btMetrics, calculate_enhanced_metrics_of_ne_nil _ hR, Option.map_some']
    rw [if_pos hrne] at hbm
    refine ⟨_, hbm, ?_, rfl⟩
    show 0.3 * sortinoOf (strategyReturnsList w p) +
        0.7 * sortinoField
          (calculate_enhanced_metrics (recentSlice (strategyReturnsList w p)) none) = _
    rw [calculate_enhanced_metrics_of_ne_nil _ hrne]
    show 0.3 * sortinoOf (strategyReturnsList w p) +
        0.7 * sortinoOf (recentSlice (strategyReturnsList w p)) = _
    ring

/-- C2.  For every trial whose strategy-return series has at least one
observation, the combined score carried by the trial result equals
`0.7 * (Sortino of the recent slice) + 0.3 * (Sortino of the full series)`,
where the recent slice drops the first `N - min(504, N / 2)` entries; this
blended value is what overwrites the combined score that the full-history
metrics call wrote into the bundle. -/
theorem c2_blended_combined_score
    (data : List (ℚ × ℚ)) (w : ℕ) (strat : StrategyType)
    (hN : 1 ≤ (strategyReturnsList w (priceFor strat data)).length) :
    ∃ r m, backtest_ma_strategy data w strat = some r ∧ r.metrics = some m ∧
      m.combined_score =
        0.7 * sortinoOf (recentSlice (strategyReturnsList w (priceFor strat data))) +
        0.3 * sortinoOf (strategyReturnsList w (priceFor strat data)) := by
  have hp : (priceFor strat data).length ≠ 0 := by
    intro h0
    rw [List.length_eq_zero] at h0
    rw [h0, strategyReturnsList_nil] at hN
    simp at hN
  have hR : (strategyReturnsList w (priceFor strat data)).length ≠ 0 := by omega
  obtain ⟨m, hm, hscore, _⟩ := btMetrics_combined w (priceFor strat data) hR
  exact ⟨_, m, by rw [backtest_ma_strategy, if_neg hp], hm, hscore⟩

lemma priceFor_btc_const3 :
    priceFor StrategyType.BTC_only [((1 : ℚ), (1 : ℚ)), (1, 1), (1, 1)] = [1, 1, 1] := by
  simp [priceFor]

lemma strategyReturnsList_const3 :
    strategyReturnsList 1 [(1 : ℚ), 1, 1] = [0, 0] := by
  have hs : signalsOf 1 [(1 : ℚ), 1, 1] = [0, 0, 0] := by
    norm_num [signalsOf, rawSignalOf, maAt, winMean, List.range_succ, ffill0Aux]
  have hpct : pricePctChange [(1 : ℚ), 1, 1] = [none, some 0, some 0] := by
    norm_num [pricePctChange, List.range_succ]
  rw [strategyReturnsList, strategyReturnsRaw, hs, hpct]
  norm_num [shiftOne, List.range_succ, mulOpt, List.filterMap_cons]

/-- Witness for C2 on a three-row constant dataset with window 1: the
strategy-return series has two observations, and the combined score of the
trial is the 0.7/0.3 blend of the recent and full-history Sortino. -/
theorem c2_blended_combined_score_witness :
    (1 ≤ (strategyReturnsList 1
        (priceFor StrategyType.BTC_only [((1 : ℚ), (1 : ℚ)), (1, 1), (1, 1)])).length) ∧
    ∃ r m,
      backtest_ma_strategy [((1 : ℚ), (1 : ℚ)), (1, 1), (1, 1)] 1 StrategyType.BTC_only =
        some r ∧
      r.metrics = some m ∧
      m.combined_score =
        0.7 * sortinoOf (recentSlice (strategyReturnsList 1
          (priceFor StrategyType.BTC_only [((1 : ℚ), (1 : ℚ)), (1, 1), (1, 1)]))) +
        0.3 * sortinoOf (strategyReturnsList 1
          (priceFor StrategyType.BTC_only [((1 : ℚ), (1 : ℚ)), (1, 1), (1, 1)])) := by
  have hN : 1 ≤ (strategyReturnsList 1
      (priceFor StrategyType.BTC_only [((1 : ℚ), (1 : ℚ)), (1, 1), (1, 1)])).length := by
    rw [priceFor_btc_const3, strategyReturnsList_const3]
    norm_num
  exact ⟨hN, c2_blended_combined_score [((1 : ℚ), (1 : ℚ)), (1, 1), (1, 1)] 1
    StrategyType.BTC_only hN⟩

lemma getD_replicate (c d : ℚ) (L k : ℕ) (h : k < L) :
    (List.replicate L c).getD k d = c := by
  rw [List.getD_eq_getElem?_getD, List.getElem?_replicate_of_lt h]
  rfl

lemma rangeMap_none_zero (n : ℕ) (f : ℕ → Option ℚ) (h0 : f 0 = none)
    (hs : ∀ i, i < n → f (i + 1) = some 0) :
    (List.range (n + 1)).map f = none :: List.replicate n (some 0) := by
  rw [List.range_succ_eq_map, List.map_cons, h0, List.map_map]
  have hcongr : ∀ i ∈ List.range n, (f ∘ Nat.succ) i = (fun _ => some (0 : ℚ)) i := by
    intro i hi
    exact hs i (List.mem_range.mp hi)
  rw [List.map_congr_left hcongr, List.map_const', List.length_range]

lemma pricePctChange_replicate (c : ℚ) (n : ℕ) :
    pricePctChange (List.replicate (n + 1) c) = none :: List.replicate n (some 0) := by
  rw [pricePctChange, List.length_replicate]
  refine rangeMap_none_zero n _ (by simp) ?_
  intro i hi
  rw [if_neg (Nat.succ_ne_zero i)]
  simp only [Nat.add_sub_cancel]
  rw [getD_replicate _ _ _ _ (by omega), getD_replicate _ _ _ _ (by omega)]
  simp

lemma winMean_replicate (w : ℕ) (c : ℚ) (L i : ℕ)
    (hw : 1 ≤ w) (hwi : w ≤ i + 1) (hi : i < L) :
    winMean w (List.replicate L c) i = c := by
  rw [winMean, List.drop_replicate, List.take_replicate]
  have hmin : min w (L - (i + 1 - w)) = w := by omega
  have hw0 : (w : ℚ) ≠ 0 := Nat.cast_ne_zero.mpr (by omega)
  rw [hmin, List.sum_replicate, nsmul_eq_mul, mul_comm, mul_div_assoc,
    div_self hw0, mul_one]

lemma ffill0Aux_all_zero (xs : List (Option ℚ))
    (h : ∀ o ∈ xs, o = none ∨ o = some 0) :
    ffill0Aux 0 xs = List.replicate xs.length 0 := by
  induction xs with
  | nil => rfl
  | cons o t ih =>
    have hrest := ih (fun x hx => h x (List.mem_cons_of_mem o hx))
    rcases h o (List.mem_cons_self o t) with h0 | h0 <;> subst h0
    · rw [List.length_cons, List.replicate_succ]
      simpa [ffill0Aux] using hrest
    · rw [List.length_cons, List.replicate_succ]
      simpa [ffill0Aux] using hrest

lemma signalsOf_replicate (w : ℕ) (c : ℚ) (L : ℕ) (hw : 1 ≤ w) :
    signalsOf w (List.replicate L c) = List.replicate L 0 := by
  have hmem : ∀ o ∈ rawSignalOf w (List.replicate L c), o = none ∨ o = some 0 := by
    intro o ho
    rw [rawSignalOf] at ho
    obtain ⟨i, hi, rfl⟩ := List.mem_map.mp ho
    rw [List.mem_range, List.length_replicate] at hi
    by_cases hwi : w ≤ i + 1
    · right
      rw [maAt, if_pos hwi, winMean_replicate w c L i hw hwi hi,
        getD_replicate _ _ _ _ hi]
      simp
    · left
      rw [maAt, if_neg hwi]
  rw [signalsOf, ffill0Aux_all_zero _ hmem, length_rawSignalOf, List.length_replicate]

lemma shiftOne_replicate_zero (n : ℕ) :
    shiftOne (List.replicate (n + 1) (0 : ℚ)) = none :: List.replicate n (some 0) := by
  rw [shiftOne, List.length_replicate]
  refine rangeMap_none_zero n _ (by simp) ?_
  intro i hi
  rw [if_neg (Nat.succ_ne_zero i)]
  simp only [Nat.add_sub_cancel]
  rw [getD_replicate _ _ _ _ (by omega)]

lemma strategyReturnsRaw_replicate (w : ℕ) (c : ℚ) (n : ℕ) (hw : 1 ≤ w) :
    strategyReturnsRaw w (List.replicate (n + 1) c) =
      none :: List.replicate n (some 0) := by
  rw [strategyReturnsRaw, signalsOf_replicate w c (n + 1) hw,
    shiftOne_replicate_zero n, pricePctChange_replicate c n,
    List.zipWith_cons_cons, List.zipWith_replicate]
  simp [mulOpt]

lemma filterMap_id_replicate_some (n : ℕ) (x : ℚ) :
    List.filterMap id (List.replicate n (some x)) = List.replicate n x := by
  induction n with
  | zero => rfl
  | succ k ih => simp [List.replicate_succ, List.filterMap_cons, ih]

lemma strategyReturnsList_replicate (w : ℕ) (c : ℚ) (n : ℕ) (hw : 1 ≤ w) :
    strategyReturnsList w (List.replicate (n + 1) c) = List.replicate n 0 := by
  rw [strategyReturnsList, strategyReturnsRaw_replicate w c n hw,
    List.filterMap_cons_none rfl, filterMap_id_replicate_some]

lemma diffList_replicate_zero (n : ℕ) :
    diffList (List.replicate (n + 1) (0 : ℚ)) = none :: List.replicate n (some 0) := by
  rw [diffList, List.length_replicate]
  refine rangeMap_none_zero n _ (by simp) ?_
  intro i hi
  rw [if_neg (Nat.succ_ne_zero i)]
  simp only [Nat.add_sub_cancel]
  rw [getD_replicate _ _ _ _ (by omega), getD_replicate _ _ _ _ (by omega)]
  simp

lemma countTrades_replicate_zero (n : ℕ) :
    countTrades (List.replicate (n + 1) (0 : ℚ)) = 1 := by
  rw [countTrades, diffList_replicate_zero n, List.countP_cons_of_pos _ _ (by rfl),
    List.countP_replicate]
  simp

lemma downsideList_replicate_zero (n : ℕ) :
    downsideList (List.replicate n (0 : ℚ)) = [] := by
  rw [downsideList, List.filter_replicate_of_neg (by simp)]

lemma sortinoOf_replicate_zero (n : ℕ) :
    sortinoOf (List.replicate n (0 : ℚ)) = 0 := by
  rw [sortinoOf, downsideDev, if_pos (downsideList_replicate_zero n)]
  simp

lemma listMean_replicate_zero (n : ℕ) :
    listMean (List.replicate n (0 : ℚ)) = 0 := by
  rw [listMean, List.sum_replicate]
  simp

lemma sampleVar_replicate_zero (n : ℕ) (h : 2 ≤ n) :
    sampleVar (List.replicate n (0 : ℚ)) = some 0 := by
  rw [sampleVar, if_pos (by rw [List.length_replicate]; omega)]
  rw [listMean_replicate_zero n, List.map_replicate, List.sum_replicate]
  simp

lemma annVol_replicate_zero (n : ℕ) (h : 2 ≤ n) :
    annVol (List.replicate n (0 : ℚ)) = some 0 := by
  rw [annVol, stdR, sampleVar_replicate_zero n h]
  simp

lemma recentSlice_replicate_zero (n : ℕ) :
    recentSlice (List.replicate n (0 : ℚ)) =
      List.replicate (min 504 (n / 2)) (0 : ℚ) := by
  rw [recentSlice, List.length_replicate, List.drop_replicate]
  congr 1
  omega

lemma blendReturns_replicate (w1 w2 c : ℚ) (n : ℕ) :
    blendReturns w1 w2 (List.replicate (n + 1) (c, c)) =
      none :: List.replicate n (some 0) := by
  have h1 : (List.replicate (n + 1) (c, c)).map Prod.fst = List.replicate (n + 1) c := by
    simp
  have h2 : (List.replicate (n + 1) (c, c)).map Prod.snd = List.replicate (n + 1) c := by
    simp
  rw [blendReturns, h1, h2, pricePctChange_replicate, List.zipWith_cons_cons,
    List.zipWith_replicate]
  simp

lemma cumprodAux_ones (n : ℕ) :
    cumprodAux 1 (List.replicate n (1 : ℚ)) = List.replicate n 1 := by
  induction n with
  | zero => rfl
  | succ k ih => simp [List.replicate_succ, cumprodAux, ih]

lemma blendPrices_replicate (w1 w2 c : ℚ) (n : ℕ) :
    blendPrices w1 w2 (List.replicate (n + 1) (c, c)) =
      List.replicate (n + 1) 100 := by
  rw [blendPrices, blendReturns_replicate]
  have hmap : ((none :: List.replicate n (some (0 : ℚ))).map (fun o => 1 + o.getD 0)) =
      List.replicate (n + 1) (1 : ℚ) := by
    rw [List.map_cons, List.map_replicate, List.replicate_succ]
    norm_num
  rw [hmap, cumprodAux_ones, List.map_replicate]
  norm_num

lemma priceFor_replicate (strat : StrategyType) (c : ℚ) (n : ℕ) :
    ∃ c', priceFor strat (List.replicate (n + 1) (c, c)) = List.replicate (n + 1) c' := by
  cases strat with
  | BTC_only => exact ⟨c, by simp [priceFor]⟩
  | ETH_only => exact ⟨c, by simp [priceFor]⟩
  | rebalance_50_50 => exact ⟨100, blendPrices_replicate _ _ c n⟩
  | rebalance_60_40 => exact ⟨100, blendPrices_replicate _ _ c n⟩

/-- C5 (amended).  On a constant strictly positive price dataset with at
least 3 observations and at least as many observations as the MA window,
every Backtest Engine trial reports exactly 1 trade (the undefined leading
entry of `signals.diff()` counts as a non-zero change, so the count is 1,
not 0), zero annualised volatility, and a combined score of 0 (not NaN). -/
theorem c5_constant_series_metrics (c : ℚ) (L w : ℕ) (strat : StrategyType)
    (_hc : 0 < c) (hw : 1 ≤ w) (_hwL : w ≤ L) (hL : 3 ≤ L) :
    ∃ r m, backtest_ma_strategy (List.replicate L (c, c)) w strat = some r ∧
      r.total_trades = 1 ∧ r.metrics = some m ∧
      m.volatility = some 0 ∧ m.combined_score = 0 := by
  obtain ⟨n, rfl⟩ : ∃ n, L = n + 1 := ⟨L - 1, by omega⟩
  obtain ⟨c', hpf⟩ := priceFor_replicate strat c n
  have hn2 : 2 ≤ n := by omega
  have hp : (priceFor strat (List.replicate (n + 1) (c, c))).length ≠ 0 := by
    rw [hpf, List.length_replicate]
    omega
  have hsr : strategyReturnsList w (priceFor strat (List.replicate (n + 1) (c, c))) =
      List.replicate n 0 := by
    rw [hpf]
    exact strategyReturnsList_replicate w c' n hw
  have hR : (strategyReturnsList w (priceFor strat (List.replicate (n + 1) (c, c)))).length ≠ 0 := by
    rw [hsr, List.length_replicate]
    omega
  obtain ⟨m, hm, hsc, hvol⟩ :=
    btMetrics_combined w (priceFor strat (List.replicate (n + 1) (c, c))) hR
  refine ⟨_, m, by rw [backtest_ma_strategy, if_neg hp], ?_, hm, ?_, ?_⟩
  · show countTrades (signalsOf w (priceFor strat (List.replicate (n + 1) (c, c)))) = 1
    rw [hpf, signalsOf_replicate w c' (n + 1) hw]
    exact countTrades_replicate_zero n
  · rw [hvol, hsr]
    exact annVol_replicate_zero n hn2
  · rw [hsc, hsr, recentSlice_replicate_zero, sortinoOf_replicate_zero,
      sortinoOf_replicate_zero]
    norm_num

/-- Witness for C5 on the constant dataset of five rows of (2, 2) with
window 2: one counted trade, zero volatility, combined score 0. -/
theorem c5_constant_series_metrics_witness :
    ((0 : ℚ) < 2 ∧ 1 ≤ 2 ∧ 2 ≤ 5 ∧ 3 ≤ 5) ∧
    ∃ r m, backtest_ma_strategy (List.replicate 5 ((2 : ℚ), (2 : ℚ))) 2
        StrategyType.ETH_only = some r ∧
      r.total_trades = 1 ∧ r.metrics = some m ∧
      m.volatility = some 0 ∧ m.combined_score = 0 :=
  ⟨⟨by norm_num, by norm_num, by norm_num, by norm_num⟩,
    c5_constant_series_metrics 2 5 2 StrategyType.ETH_only (by norm_num)
      (by norm_num) (by norm_num) (by norm_num)⟩

lemma annVol_singleton (x : ℚ) : annVol [x] = none := by
  rw [annVol, stdR, sampleVar]
  simp

/-- Counterexample to C5.  On the constant positive two-row dataset with
window 1 (so the series is at least as long as the window), the trial
reports 1 trade, not 0 — the undefined leading entry of `signals.diff()`
is counted as a non-zero change — and the annualised volatility is NaN
(`none`), not 0, because the single-observation strategy-return series has
an undefined standard deviation.  The combined score is still 0. -/
theorem c5_constant_series_counterexample :
    Option.map BTResult.total_trades
      (backtest_ma_strategy (List.replicate 2 ((1 : ℚ), (1 : ℚ))) 1
        StrategyType.BTC_only) = some 1 ∧
    Option.map Metrics.volatility
      (Option.bind
        (backtest_ma_strategy (List.replicate 2 ((1 : ℚ), (1 : ℚ))) 1
          StrategyType.BTC_only) BTResult.metrics) = some none ∧
    Option.map Metrics.combined_score
      (Option.bind
        (backtest_ma_strategy (List.replicate 2 ((1 : ℚ), (1 : ℚ))) 1
          StrategyType.BTC_only) BTResult.metrics) = some 0 := by
  have hpf : priceFor StrategyType.BTC_only (List.replicate 2 ((1 : ℚ), (1 : ℚ))) =
      List.replicate 2 (1 : ℚ) := by
    simp [priceFor]
  have hp : (priceFor StrategyType.BTC_only (List.replicate 2 ((1 : ℚ), (1 : ℚ)))).length ≠ 0 := by
    rw [hpf, List.length_replicate]
    omega
  have hsr : strategyReturnsList 1
      (priceFor StrategyType.BTC_only (List.replicate 2 ((1 : ℚ), (1 : ℚ)))) =
      List.replicate 1 0 := by
    rw [hpf]
    exact strategyReturnsList_replicate 1 1 1 (le_refl 1)
  have hR : (strategyReturnsList 1
      (priceFor StrategyType.BTC_only (List.replicate 2 ((1 : ℚ), (1 : ℚ))))).length ≠ 0 := by
    rw [hsr, List.length_replicate]
    omega
  obtain ⟨m, hm, hsc, hvol⟩ :=
    btMetrics_combined 1 (priceFor StrategyType.BTC_only (List.replicate 2 ((1 : ℚ), (1 : ℚ)))) hR
  have hvol' : m.volatility = none := by
    rw [hvol, hsr]
    exact annVol_singleton 0
  have hsc' : m.combined_score = 0 := by
    rw [hsc, hsr, recentSlice_replicate_zero, sortinoOf_replicate_zero,
      sortinoOf_replicate_zero]
    norm_num
  have htr : countTrades (signalsOf 1
      (priceFor StrategyType.BTC_only (List.replicate 2 ((1 : ℚ), (1 : ℚ))))) = 1 := by
    rw [hpf, signalsOf_replicate 1 1 2 (le_refl 1)]
    exact countTrades_replicate_zero 1
  refine ⟨?_, ?_, ?_⟩
  · rw [backtest_ma_strategy, if_neg hp]
    show some (countTrades (signalsOf 1
      (priceFor StrategyType.BTC_only (List.replicate 2 ((1 : ℚ), (1 : ℚ)))))) = some 1
    rw [htr]
  · rw [backtest_ma_strategy, if_neg hp]
    show Option.map Metrics.volatility
      (btMetrics 1 (priceFor StrategyType.BTC_only (List.replicate 2 ((1 : ℚ), (1 : ℚ))))) =
        some none
    rw [hm, Option.map_some', hvol']
  · rw [backtest_ma_strategy, if_neg hp]
    show Option.map Metrics.combined_score
      (btMetrics 1 (priceFor StrategyType.BTC_only (List.replicate 2 ((1 : ℚ), (1 : ℚ))))) =
        some 0
    rw [hm, Option.map_some', hsc']

/-- The candidate-window ranges of `find_optimal_ma`: `range(5, 101)` for
the single-asset strategies and `range(10, 61)` for the rebalance
strategies. -/
def testRange (strat : StrategyType) : List ℕ :=
  match strat with
  | .BTC_only => List.range' 5 96
  | .ETH_only => List.range' 5 96
  | .rebalance_50_50 => List.range' 10 51
  | .rebalance_60_40 => List.range' 10 51

/-- The accumulator of the selection loop of `find_optimal_ma`, with its
initial values `best_score = -999`, `best_ma = 20`, `best_result = {}`. -/
structure OptState where
  bestScore : ℝ
  bestMa : ℕ
  bestResult : Option BTResult

/-- The combined score a trial exposes to the selection loop: present
exactly when the trial returned a non-empty dict containing the
`combined_score` key (`if result and 'combined_score' in result`). -/
noncomputable def trialScore (bt : ℕ → Option BTResult) (w : ℕ) : Option ℝ :=
  match bt w with
  | none => none
  | some r =>
    match r.metrics with
    | none => none
    | some m => some m.combined_score

/-- One iteration of the selection loop: a failed trial (or one without a
combined score) leaves the state unchanged; otherwise the state is
replaced exactly when `score > best_score` holds strictly. -/
noncomputable def optStep (bt : ℕ → Option BTResult) (st : OptState) (w : ℕ) : OptState :=
  match bt w with
  | none => st
  | some r =>
    match r.metrics with
    | none => st
    | some m =>
      if st.bestScore < m.combined_score then ⟨m.combined_score, w, some r⟩ else st

/-- The whole selection loop of `find_optimal_ma`: the futures dict
preserves submission order, and `for future in futures` together with the
blocking `future.result()` makes the loop consume the trials in exactly
the submitted window order, whatever order the pool completes them in. -/
noncomputable def optSelect (bt : ℕ → Option BTResult) (ws : List ℕ) : OptState :=
  ws.foldl (optStep bt) ⟨-999, 20, none⟩

/-- The exported `StrategyResult` record; fields read from `best_result`
with the source's lookup defaults.  The wall-clock `last_signal_change`
timestamp is not modelled. -/
structure StrategyResult where
  strategy : StrategyType
  optimal_ma : ℕ
  cagr : ℝ
  mdd : ℚ
  sharpe : ℝ
  sortino : ℝ
  combined_score : ℝ
  win_rate : ℚ
  total_trades : ℕ
  current_signal : Option SignalClass
  signal_strength : ℚ
  backtest_data : Option BTResult

/-- `best_result.get(key, 0)` for a real-valued metric key. -/
noncomputable def bestMetricR (o : Option BTResult) (f : Metrics → ℝ) : ℝ :=
  match o with
  | some r =>
    match r.metrics with
    | some m => f m
    | none => 0
  | none => 0

/-- `best_result.get(key, 0)` for a rational-valued metric key. -/
noncomputable def bestMetricQ (o : Option BTResult) (f : Metrics → ℚ) : ℚ :=
  match o with
  | some r =>
    match r.metrics with
    | some m => f m
    | none => 0
  | none => 0

/-- The `StrategyResult(...)` construction at the end of
`find_optimal_ma`. -/
noncomputable def mkStrategyResult (strat : StrategyType) (st : OptState) : StrategyResult where
  strategy := strat
  optimal_ma := st.bestMa
  cagr := 100 * bestMetricR st.bestResult (fun m => m.cagr)
  mdd := 100 * bestMetricQ st.bestResult (fun m => m.max_drawdown)
  sharpe := bestMetricR st.bestResult (fun m => m.sharpe)
  sortino := bestMetricR st.bestResult (fun m => m.sortino)
  combined_score := st.bestScore
  win_rate := 100 * bestMetricQ st.bestResult (fun m => m.win_rate)
  total_trades := (st.bestResult.map BTResult.total_trades).getD 0
  current_signal := st.bestResult.map BTResult.current_signal
  signal_strength := (st.bestResult.map BTResult.signal_strength).getD 50
  backtest_data := st.bestResult

/-- `find_optimal_ma`, parametrised by the per-window trial outcome
(`bt w` is what the future for window `w` delivers: `none` for an
exception, a timeout or an empty dict). -/
noncomputable def find_optimal_ma_from
    (bt : ℕ → Option BTResult) (strat : StrategyType) : StrategyResult :=
  mkStrategyResult strat (optSelect bt (testRange strat))

/-- `find_optimal_ma(data, strategy_type)`: the trial for window `w` is
the pure computation `backtest_ma_strategy(data, w, strategy_type)`. -/
noncomputable def find_optimal_ma
    (data : List (ℚ × ℚ)) (strat : StrategyType) : StrategyResult :=
  find_optimal_ma_from (fun w => backtest_ma_strategy data w strat) strat

/-- The iteration order of `self.strategies.keys()` in
`run_full_analysis`. -/
def strategyOrder : List StrategyType :=
  [.BTC_only, .ETH_only, .rebalance_50_50, .rebalance_60_40]

/-- The per-strategy result mapping built by the loop of
`run_full_analysis` (the strategy-analysis part after the data fetch; the
`metadata` entry is not modelled).  `find_optimal_ma` is total, so the
`except: continue` branch that would omit a strategy is never taken. -/
noncomputable def results_map (data : List (ℚ × ℚ)) : List (StrategyType × StrategyResult) :=
  strategyOrder.map (fun s => (s, find_optimal_ma data s))

/-- Every trial of a strategy failed: each window's future delivers an
exception or an empty dict. -/
def allTrialsFail (data : List (ℚ × ℚ)) (strat : StrategyType) : Prop :=
  ∀ w ∈ testRange strat, backtest_ma_strategy data w strat = none

/-- The table of (window, trial outcome) pairs in the order the worker
pool happens to complete the trials. -/
def execTable (bt : ℕ → Option BTResult) (order : List ℕ) : List (ℕ × Option BTResult) :=
  order.map (fun w => (w, bt w))

/-- What the collecting loop observes for window `w`: the value recorded
for `w` in the completion table (the `getD none` fallback is unreachable
when every submitted window completes). -/
noncomputable def observedResults (bt : ℕ → Option BTResult) (order : List ℕ) :
    ℕ → Option BTResult :=
  fun w => ((execTable bt order).lookup w).getD none

/-- One whole optimisation sweep in which the pool completes the trials in
the order `order`, while the collection loop still consumes them in
submission order. -/
noncomputable def sweepWithOrder (bt : ℕ → Option BTResult) (strat : StrategyType)
    (order : List ℕ) : StrategyResult :=
  find_optimal_ma_from (observedResults bt order) strat

lemma optStep_of_trialScore_none (bt : ℕ → Option BTResult) (st : OptState) (w : ℕ)
    (h : trialScore bt w = none) : optStep bt st w = st := by
  cases hbt : bt w with
  | none => simp [optStep, hbt]
  | some r =>
    cases hm : r.metrics with
    | none => simp [optStep, hbt, hm]
    | some m =>
      simp [trialScore, hbt, hm] at h

lemma optStep_of_not_lt (bt : ℕ → Option BTResult) (st : OptState) (w : ℕ) (s : ℝ)
    (h : trialScore bt w = some s) (hle : ¬ st.bestScore < s) : optStep bt st w = st := by
  cases hbt : bt w with
  | none => simp [optStep, hbt]
  | some r =>
    cases hm : r.metrics with
    | none => simp [optStep, hbt, hm]
    | some m =>
      simp only [trialScore, hbt, hm, Option.some.injEq] at h
      subst h
      simp [optStep, hbt, hm, hle]

lemma optStep_of_lt (bt : ℕ → Option BTResult) (st : OptState) (w : ℕ) (s : ℝ)
    (h : trialScore bt w = some s) (hlt : st.bestScore < s) :
    optStep bt st w = ⟨s, w, bt w⟩ := by
  cases hbt : bt w with
  | none => simp [trialScore, hbt] at h
  | some r =>
    cases hm : r.metrics with
    | none => simp [trialScore, hbt, hm] at h
    | some m =>
      simp only [trialScore, hbt, hm, Option.some.injEq] at h
      subst h
      simp [optStep, hbt, hm, hlt]

lemma optFold_no_update (bt : ℕ → Option BTResult) :
    ∀ (ws : List ℕ) (st : OptState),
      (∀ w ∈ ws, ∀ s, trialScore bt w = some s → s ≤ st.bestScore) →
      List.foldl (optStep bt) st ws = st := by
  intro ws
  induction ws with
  | nil => intro st _; rfl
  | cons a t ih =>
    intro st h
    rw [List.foldl_cons]
    have hstep : optStep bt st a = st := by
      cases hts : trialScore bt a with
      | none => exact optStep_of_trialScore_none bt st a hts
      | some s =>
        exact optStep_of_not_lt bt st a s hts
          (not_lt.mpr (h a (List.mem_cons_self a t) s hts))
    rw [hstep]
    exact ih st (fun w hw s hs => h w (List.mem_cons_of_mem a hw) s hs)

lemma optFold_finds_max (bt : ℕ → Option BTResult) :
    ∀ (ws : List ℕ) (st : OptState) (w : ℕ) (s : ℝ),
      ws.Pairwise (· < ·) → w ∈ ws → trialScore bt w = some s → st.bestScore < s →
      (∀ w' ∈ ws, ∀ s', trialScore bt w' = some s' → s' ≤ s) →
      (∀ w' ∈ ws, w' < w → trialScore bt w' ≠ some s) →
      List.foldl (optStep bt) st ws = ⟨s, w, bt w⟩ := by
  intro ws
  induction ws with
  | nil => intro st w s _ hmem; cases hmem
  | cons a t ih =>
    intro st w s hpw hmem hts hlt hmax hfirst
    rw [List.foldl_cons]
    rcases List.mem_cons.mp hmem with rfl | hmemt
    · rw [optStep_of_lt bt st w s hts hlt]
      exact optFold_no_update bt t ⟨s, w, bt w⟩
        (fun w' hw' s' hs' => hmax w' (List.mem_cons_of_mem w hw') s' hs')
    · have haw : a < w := (List.pairwise_cons.mp hpw).1 w hmemt
      have htail : t.Pairwise (· < ·) := (List.pairwise_cons.mp hpw).2
      have hmax' : ∀ w' ∈ t, ∀ s', trialScore bt w' = some s' → s' ≤ s :=
        fun w' hw' s' hs' => hmax w' (List.mem_cons_of_mem a hw') s' hs'
      have hfirst' : ∀ w' ∈ t, w' < w → trialScore bt w' ≠ some s :=
        fun w' hw' hlt' => hfirst w' (List.mem_cons_of_mem a hw') hlt'
      cases hts' : trialScore bt a with
      | none =>
        rw [optStep_of_trialScore_none bt st a hts']
        exact ih st w s htail hmemt hts hlt hmax' hfirst'
      | some s' =>
        have hs'le : s' ≤ s := hmax a (List.mem_cons_self a t) s' hts'
        have hs'ne : s' ≠ s := by
          intro he
          exact hfirst a (List.mem_cons_self a t) haw (he ▸ hts')
        have hs'lt : s' < s := lt_of_le_of_ne hs'le hs'ne
        by_cases hcase : st.bestScore < s'
        · rw [optStep_of_lt bt st a s' hts' hcase]
          exact ih ⟨s', a, bt a⟩ w s htail hmemt hts hs'lt hmax' hfirst'
        · rw [optStep_of_not_lt bt st a s' hts' hcase]
          exact ih st w s htail hmemt hts hlt hmax' hfirst'

lemma testRange_pairwise (strat : StrategyType) :
    (testRange strat).Pairwise (· < ·) := by
  cases strat <;> exact List.pairwise_lt_range' _ _

/-- C1 (amended).  The optimizer sweeps exactly windows 5..100 for the
single-asset strategies and 10..60 for the rebalance strategies, and —
provided at least one trial produced a combined score strictly above the
`-999` sentinel that initialises `best_score` — it returns the first-seen
window attaining the strictly highest combined score, together with that
score.  (Trials whose score does not exceed the sentinel can never be
selected; if none exceeds it, the defaults `best_ma = 20`,
`best_score = -999` are returned instead.) -/
theorem c1_optimal_window_selection
    (bt : ℕ → Option BTResult) (strat : StrategyType) (w : ℕ) (s : ℝ)
    (hmem : w ∈ testRange strat)
    (hts : trialScore bt w = some s)
    (hsent : (-999 : ℝ) < s)
    (hmax : ∀ w' ∈ testRange strat, ∀ s', trialScore bt w' = some s' → s' ≤ s)
    (hfirst : ∀ w' ∈ testRange strat, w' < w → trialScore bt w' ≠ some s) :
    ((∀ v, v ∈ testRange StrategyType.BTC_only ↔ 5 ≤ v ∧ v ≤ 100) ∧
     (∀ v, v ∈ testRange StrategyType.ETH_only ↔ 5 ≤ v ∧ v ≤ 100) ∧
     (∀ v, v ∈ testRange StrategyType.rebalance_50_50 ↔ 10 ≤ v ∧ v ≤ 60) ∧
     (∀ v, v ∈ testRange StrategyType.rebalance_60_40 ↔ 10 ≤ v ∧ v ≤ 60)) ∧
    (find_optimal_ma_from bt strat).optimal_ma = w ∧
    (find_optimal_ma_from bt strat).combined_score = s := by
  have hfold : optSelect bt (testRange strat) = ⟨s, w, bt w⟩ :=
    optFold_finds_max bt (testRange strat) ⟨-999, 20, none⟩ w s
      (testRange_pairwise strat) hmem hts hsent hmax hfirst
  refine ⟨⟨?_, ?_, ?_, ?_⟩, ?_, ?_⟩
  · intro v
    rw [testRange, List.mem_range']
    constructor
    · rintro ⟨i, hi, rfl⟩; omega
    · intro hv; exact ⟨v - 5, by omega, by omega⟩
  · intro v
    rw [testRange, List.mem_range']
    constructor
    · rintro ⟨i, hi, rfl⟩; omega
    · intro hv; exact ⟨v - 5, by omega, by omega⟩
  · intro v
    rw [testRange, List.mem_range']
    constructor
    · rintro ⟨i, hi, rfl⟩; omega
    · intro hv; exact ⟨v - 10, by omega, by omega⟩
  · intro v
    rw [testRange, List.mem_range']
    constructor
    · rintro ⟨i, hi, rfl⟩; omega
    · intro hv; exact ⟨v - 10, by omega, by omega⟩
  · rw [find_optimal_ma_from, hfold]
    rfl
  · rw [find_optimal_ma_from, hfold]
    rfl

/-- An all-zero metric bundle used as a concrete trial outcome. -/
noncomputable def metricsZero : Metrics where
  cagr := 0
  volatility := some 0
  sharpe := 0
  sortino := 0
  max_drawdown := 0
  win_rate := 0
  total_return := 0
  combined_score := 0
  num_trades := 0

/-- A metric bundle whose combined score -1000 lies below the -999
sentinel of the selection loop. -/
noncomputable def metricsNeg : Metrics :=
  { metricsZero with combined_score := -1000 }

/-- A concrete successful trial result with combined score 0. -/
noncomputable def resZero : BTResult where
  metrics := some metricsZero
  ma_period := 7
  total_trades := 0
  current_signal := SignalClass.weakSell
  signal_strength := 50
  price_ma_quot := 1
  recent_perf := none

/-- A concrete successful trial result with combined score -1000. -/
noncomputable def resNeg : BTResult :=
  { resZero with metrics := some metricsNeg }

/-- Trial family: only window 7 succeeds, with combined score 0. -/
noncomputable def btSingleZero : ℕ → Option BTResult :=
  fun w => if w = 7 then some resZero else none

/-- Trial family: only window 5 succeeds, with combined score -1000. -/
noncomputable def btSingleNeg : ℕ → Option BTResult :=
  fun w => if w = 5 then some resNeg else none

/-- Trial family: windows 8 and 9 succeed with an exact tie at score 0. -/
noncomputable def btTieZero : ℕ → Option BTResult :=
  fun w => if w = 8 ∨ w = 9 then some resZero else none

/-- Trial family: windows 5 and 6 succeed with an exact tie at -1000. -/
noncomputable def btTieNeg : ℕ → Option BTResult :=
  fun w => if w = 5 ∨ w = 6 then some resNeg else none

lemma trialScore_btSingleZero (w : ℕ) :
    trialScore btSingleZero w = if w = 7 then some 0 else none := by
  by_cases h : w = 7 <;>
    simp [trialScore, btSingleZero, h, resZero, metricsZero]

lemma trialScore_btSingleNeg (w : ℕ) :
    trialScore btSingleNeg w = if w = 5 then some (-1000) else none := by
  by_cases h : w = 5 <;>
    simp [trialScore, btSingleNeg, h, resNeg, resZero, metricsNeg, metricsZero]

lemma trialScore_btTieZero (w : ℕ) :
    trialScore btTieZero w = if w = 8 ∨ w = 9 then some 0 else none := by
  by_cases h : w = 8 ∨ w = 9 <;>
    simp [trialScore, btTieZero, h, resZero, metricsZero]

lemma trialScore_btTieNeg (w : ℕ) :
    trialScore btTieNeg w = if w = 5 ∨ w = 6 then some (-1000) else none := by
  by_cases h : w = 5 ∨ w = 6 <;>
    simp [trialScore, btTieNeg, h, resNeg, resZero, metricsNeg, metricsZero]

/-- Witness for C1: when only window 7 yields a result (combined score 0,
above the sentinel), the optimizer returns window 7 with score 0. -/
theorem c1_optimal_window_selection_witness :
    (7 ∈ testRange StrategyType.BTC_only ∧ trialScore btSingleZero 7 = some 0 ∧
      (-999 : ℝ) < 0) ∧
    (find_optimal_ma_from btSingleZero StrategyType.BTC_only).optimal_ma = 7 ∧
    (find_optimal_ma_from btSingleZero StrategyType.BTC_only).combined_score = 0 := by
  have hmem : 7 ∈ testRange StrategyType.BTC_only := by
    rw [testRange, List.mem_range']
    exact ⟨2, by omega, by omega⟩
  have hts : trialScore btSingleZero 7 = some 0 := by
    rw [trialScore_btSingleZero, if_pos rfl]
  have hmax : ∀ w' ∈ testRange StrategyType.BTC_only, ∀ s',
      trialScore btSingleZero w' = some s' → s' ≤ 0 := by
    intro w' _ s' hs'
    rw [trialScore_btSingleZero] at hs'
    by_cases h : w' = 7
    · rw [if_pos h] at hs'
      simp only [Option.some.injEq] at hs'
      exact le_of_eq hs'.symm
    · rw [if_neg h] at hs'
      cases hs'
  have hfirst : ∀ w' ∈ testRange StrategyType.BTC_only, w' < 7 →
      trialScore btSingleZero w' ≠ some 0 := by
    intro w' _ hlt
    rw [trialScore_btSingleZero, if_neg (by omega)]
    simp
  have h := c1_optimal_window_selection btSingleZero StrategyType.BTC_only 7 0
    hmem hts (by norm_num) hmax hfirst
  exact ⟨⟨hmem, hts, by norm_num⟩, h.2.1, h.2.2⟩

/-- Counterexample to C1.  Window 5 is the only trial that produced a
result containing a combined score (the score -1000), so it is trivially
the window with the strictly highest combined score among all such trials;
the claim says it must be returned.  Yet the optimizer returns the default
window 20 — a window whose trial produced no combined score at all — with
the sentinel score -999, because -1000 does not exceed the -999
initialisation of `best_score`. -/
theorem c1_sentinel_counterexample :
    trialScore btSingleNeg 5 = some (-1000) ∧
    trialScore btSingleNeg 20 = none ∧
    (find_optimal_ma_from btSingleNeg StrategyType.BTC_only).optimal_ma = 20 ∧
    (find_optimal_ma_from btSingleNeg StrategyType.BTC_only).combined_score = -999 := by
  have hfold : optSelect btSingleNeg (testRange StrategyType.BTC_only) =
      ⟨-999, 20, none⟩ := by
    apply optFold_no_update
    intro w _ sc hsc
    rw [trialScore_btSingleNeg] at hsc
    by_cases h : w = 5
    · rw [if_pos h] at hsc
      simp only [Option.some.injEq] at hsc
      rw [← hsc]
      norm_num
    · rw [if_neg h] at hsc
      cases hsc
  refine ⟨by rw [trialScore_btSingleNeg, if_pos rfl], ?_, ?_, ?_⟩
  · rw [trialScore_btSingleNeg, if_neg (by omega)]
  · rw [find_optimal_ma_from, hfold]
    rfl
  · rw [find_optimal_ma_from, hfold]
    rfl

/-- C10 (amended).  The futures mapping preserves submission order, so the
reduction examines the candidate windows in strictly ascending order
(`testRange` is pairwise increasing); consequently, whenever two or more
windows attain the same maximal combined score and that score exceeds the
-999 sentinel, the returned optimal window is the smallest such window.
(On a tie at or below the sentinel the default window 20 is returned
instead.) -/
theorem c10_smallest_window_on_tie
    (bt : ℕ → Option BTResult) (strat : StrategyType) (w : ℕ) (s : ℝ)
    (hmem : w ∈ testRange strat)
    (hts : trialScore bt w = some s)
    (hsent : (-999 : ℝ) < s)
    (hmax : ∀ w' ∈ testRange strat, ∀ s', trialScore bt w' = some s' → s' ≤ s)
    (hmin : ∀ w' ∈ testRange strat, trialScore bt w' = some s → w ≤ w') :
    (testRange strat).Pairwise (· < ·) ∧
    (find_optimal_ma_from bt strat).optimal_ma = w ∧
    (find_optimal_ma_from bt strat).combined_score = s := by
  have hfirst : ∀ w' ∈ testRange strat, w' < w → trialScore bt w' ≠ some s := by
    intro w' hw' hlt hts'
    exact absurd (hmin w' hw' hts') (by omega)
  have hfold : optSelect bt (testRange strat) = ⟨s, w, bt w⟩ :=
    optFold_finds_max bt (testRange strat) ⟨-999, 20, none⟩ w s
      (testRange_pairwise strat) hmem hts hsent hmax hfirst
  refine ⟨testRange_pairwise strat, ?_, ?_⟩
  · rw [find_optimal_ma_from, hfold]
    rfl
  · rw [find_optimal_ma_from, hfold]
    rfl

/-- Witness for C10: windows 8 and 9 tie at the maximal combined score 0
(above the sentinel); window 8 — the smaller one — is returned. -/
theorem c10_smallest_window_on_tie_witness :
    (8 ∈ testRange StrategyType.BTC_only ∧ trialScore btTieZero 8 = some 0 ∧
      trialScore btTieZero 9 = some 0 ∧ (-999 : ℝ) < 0) ∧
    (find_optimal_ma_from btTieZero StrategyType.BTC_only).optimal_ma = 8 ∧
    (find_optimal_ma_from btTieZero StrategyType.BTC_only).combined_score = 0 := by
  have hmem : 8 ∈ testRange StrategyType.BTC_only := by
    rw [testRange, List.mem_range']
    exact ⟨3, by omega, by omega⟩
  have hts8 : trialScore btTieZero 8 = some 0 := by
    rw [trialScore_btTieZero, if_pos (Or.inl rfl)]
  have hts9 : trialScore btTieZero 9 = some 0 := by
    rw [trialScore_btTieZero, if_pos (Or.inr rfl)]
  have hmax : ∀ w' ∈ testRange StrategyType.BTC_only, ∀ s',
      trialScore btTieZero w' = some s' → s' ≤ 0 := by
    intro w' _ s' hs'
    rw [trialScore_btTieZero] at hs'
    by_cases h : w' = 8 ∨ w' = 9
    · rw [if_pos h] at hs'
      simp only [Option.some.injEq] at hs'
      exact le_of_eq hs'.symm
    · rw [if_neg h] at hs'
      cases hs'
  have hmin : ∀ w' ∈ testRange StrategyType.BTC_only,
      trialScore btTieZero w' = some 0 → 8 ≤ w' := by
    intro w' _ hs'
    rw [trialScore_btTieZero] at hs'
    by_cases h : w' = 8 ∨ w' = 9
    · omega
    · rw [if_neg h] at hs'
      cases hs'
  have h := c10_smallest_window_on_tie btTieZero StrategyType.BTC_only 8 0
    hmem hts8 (by norm_num) hmax hmin
  exact ⟨⟨hmem, hts8, hts9, by norm_num⟩, h.2.1, h.2.2⟩

/-- Counterexample to C10.  Windows 5 and 6 attain the same maximal
combined score (-1000, every other trial yields no score), so the claim
says the smallest of them, window 5, must be returned; the optimizer
instead returns the default window 20, whose trial produced no combined
score, because the tied maximum does not exceed the -999 sentinel. -/
theorem c10_tie_sentinel_counterexample :
    trialScore btTieNeg 5 = some (-1000) ∧
    trialScore btTieNeg 6 = some (-1000) ∧
    trialScore btTieNeg 20 = none ∧
    (find_optimal_ma_from btTieNeg StrategyType.BTC_only).optimal_ma = 20 := by
  have hfold : optSelect btTieNeg (testRange StrategyType.BTC_only) =
      ⟨-999, 20, none⟩ := by
    apply optFold_no_update
    intro w _ sc hsc
    rw [trialScore_btTieNeg] at hsc
    by_cases h : w = 5 ∨ w = 6
    · rw [if_pos h] at hsc
      simp only [Option.some.injEq] at hsc
      rw [← hsc]
      norm_num
    · rw [if_neg h] at hsc
      cases hsc
  refine ⟨by rw [trialScore_btTieNeg, if_pos (Or.inl rfl)],
    by rw [trialScore_btTieNeg, if_pos (Or.inr rfl)],
    by rw [trialScore_btTieNeg, if_neg (by omega)], ?_⟩
  rw [find_optimal_ma_from, hfold]
  rfl

lemma lookup_execTable (bt : ℕ → Option BTResult) :
    ∀ (order : List ℕ) (w : ℕ), w ∈ order →
      (execTable bt order).lookup w = some (bt w) := by
  intro order
  induction order with
  | nil => intro w h; cases h
  | cons a t ih =>
    intro w h
    rw [execTable, List.map_cons]
    by_cases hw : w = a
    · subst hw
      simp [List.lookup_cons]
    · rcases List.mem_cons.mp h with rfl | hmem
      · exact absurd rfl hw
      · rw [List.lookup_cons]
        have : (w == a) = false := by
          simp [hw]
        rw [this]
        exact ih w hmem

lemma observedResults_eq (bt : ℕ → Option BTResult) (order : List ℕ) (w : ℕ)
    (h : w ∈ order) : observedResults bt order w = bt w := by
  show ((execTable bt order).lookup w).getD none = bt w
  rw [lookup_execTable bt order w h]
  rfl

lemma optStep_congr (bt₁ bt₂ : ℕ → Option BTResult) (st : OptState) (w : ℕ)
    (h : bt₁ w = bt₂ w) : optStep bt₁ st w = optStep bt₂ st w := by
  simp only [optStep, h]

lemma optFold_congr (bt₁ bt₂ : ℕ → Option BTResult) :
    ∀ (ws : List ℕ) (st : OptState), (∀ w ∈ ws, bt₁ w = bt₂ w) →
      List.foldl (optStep bt₁) st ws = List.foldl (optStep bt₂) st ws := by
  intro ws
  induction ws with
  | nil => intro st _; rfl
  | cons a t ih =>
    intro st h
    rw [List.foldl_cons, List.foldl_cons,
      optStep_congr bt₁ bt₂ st a (h a (List.mem_cons_self a t))]
    exact ih _ (fun w hw => h w (List.mem_cons_of_mem a hw))

/-- C9.  Optimizer selection is deterministic: two sweeps over the same
trial outcomes in which the worker pool completes the trials in two
arbitrary orders (any two permutations of the candidate windows) return
the same optimal window and the same best combined score — the collection
loop consumes the futures in submission order and each trial is a pure
function of its inputs, so the completion interleaving never influences
the reduction. -/
theorem c9_sweep_deterministic
    (bt : ℕ → Option BTResult) (strat : StrategyType) (o₁ o₂ : List ℕ)
    (h₁ : o₁.Perm (testRange strat)) (h₂ : o₂.Perm (testRange strat)) :
    (sweepWithOrder bt strat o₁).optimal_ma = (sweepWithOrder bt strat o₂).optimal_ma ∧
    (sweepWithOrder bt strat o₁).combined_score =
      (sweepWithOrder bt strat o₂).combined_score := by
  have key : ∀ o : List ℕ, o.Perm (testRange strat) →
      sweepWithOrder bt strat o = find_optimal_ma_from bt strat := by
    intro o ho
    rw [sweepWithOrder, find_optimal_ma_from, find_optimal_ma_from]
    congr 1
    rw [optSelect, optSelect]
    apply optFold_congr
    intro w hw
    exact observedResults_eq bt o w (ho.mem_iff.mpr hw)
  rw [key o₁ h₁, key o₂ h₂]
  exact ⟨rfl, rfl⟩

/-- The trial family in which every window fails. -/
noncomputable def btFailAll : ℕ → Option BTResult := fun _ => none

/-- Witness for C9: the submission order itself and its reversal are two
completion orders; both sweeps agree on window and score. -/
theorem c9_sweep_deterministic_witness :
    ((testRange StrategyType.BTC_only).Perm (testRange StrategyType.BTC_only) ∧
     ((testRange StrategyType.BTC_only).reverse).Perm (testRange StrategyType.BTC_only)) ∧
    (sweepWithOrder btFailAll StrategyType.BTC_only
        (testRange StrategyType.BTC_only)).optimal_ma =
      (sweepWithOrder btFailAll StrategyType.BTC_only
        ((testRange StrategyType.BTC_only).reverse)).optimal_ma ∧
    (sweepWithOrder btFailAll StrategyType.BTC_only
        (testRange StrategyType.BTC_only)).combined_score =
      (sweepWithOrder btFailAll StrategyType.BTC_only
        ((testRange StrategyType.BTC_only).reverse)).combined_score := by
  have h₁ : (testRange StrategyType.BTC_only).Perm (testRange StrategyType.BTC_only) :=
    List.Perm.refl _
  have h₂ : ((testRange StrategyType.BTC_only).reverse).Perm
      (testRange StrategyType.BTC_only) := List.reverse_perm _
  exact ⟨⟨h₁, h₂⟩,
    c9_sweep_deterministic btFailAll StrategyType.BTC_only _ _ h₁ h₂⟩

/-- C7 (amended).  A strategy is never omitted from the result mapping:
`find_optimal_ma` is a total function, so even when every candidate-window
trial for a strategy fails, the mapping still contains an entry for that
strategy — the default record built from `best_ma = 20`,
`best_score = -999` and the empty `best_result` — rather than a
"no usable result" omission.  (A strategy could only be omitted if
`find_optimal_ma` raised, which the all-trials-failed path does not do.) -/
lemma results_map_keys (data : List (ℚ × ℚ)) :
    (results_map data).map Prod.fst = strategyOrder := by
  rw [results_map, List.map_map]
  have : (Prod.fst ∘ fun s => (s, find_optimal_ma data s)) = id := by
    funext x
    rfl
  rw [this, List.map_id]

theorem c7_strategy_never_omitted (data : List (ℚ × ℚ)) (s : StrategyType) :
    s ∈ (results_map data).map Prod.fst ∧
    (allTrialsFail data s →
      (s, mkStrategyResult s ⟨-999, 20, none⟩) ∈ results_map data) := by
  constructor
  · rw [results_map_keys]
    cases s <;> simp [strategyOrder]
  · intro hfail
    have hopt : find_optimal_ma data s = mkStrategyResult s ⟨-999, 20, none⟩ := by
      rw [find_optimal_ma, find_optimal_ma_from]
      congr 1
      apply optFold_no_update
      intro w hw sc hsc
      rw [trialScore] at hsc
      rw [hfail w hw] at hsc
      cases hsc
    rw [results_map]
    refine List.mem_map.mpr ⟨s, ?_, by rw [hopt]⟩
    cases s <;> simp [strategyOrder]

/-- Witness for C7 on the empty dataset, where every trial of BTC_only
fails: the mapping still contains the default record for BTC_only. -/
theorem c7_strategy_never_omitted_witness :
    allTrialsFail [] StrategyType.BTC_only ∧
    (StrategyType.BTC_only,
      mkStrategyResult StrategyType.BTC_only ⟨-999, 20, none⟩) ∈ results_map [] := by
  have hfail : allTrialsFail [] StrategyType.BTC_only := by
    intro w _
    simp [backtest_ma_strategy, priceFor]
  exact ⟨hfail, (c7_strategy_never_omitted [] StrategyType.BTC_only).2 hfail⟩

/-- Counterexample to C7.  On the empty dataset every candidate-window
trial of BTC_only fails (each returns the empty dict), yet BTC_only is not
omitted from the result mapping: it still appears among the mapping's
keys, contradicting the claimed "no usable result" omission. -/
theorem c7_all_failed_counterexample :
    allTrialsFail [] StrategyType.BTC_only ∧
    StrategyType.BTC_only ∈ (results_map []).map Prod.fst := by
  have hfail : allTrialsFail [] StrategyType.BTC_only := by
    intro w _
    simp [backtest_ma_strategy, priceFor]
  refine ⟨hfail, ?_⟩
  rw [results_map_keys]
  simp [strategyOrder]
